import Mathlib

/-!
Shallow embedding of the terrain / hydrology kernel of
`scripts/02_calculate_ls_factor.py`: the light depression pass
(`light_carve`), D8 flow direction (`d8_flow_direction`), Kahn-style flow
accumulation (`flow_accumulation_cells`) and the LS formula (`compute_ls`).

Elevation samples are rationals, with `none` standing for NaN / no-data.
The accumulation loop is given explicit fuel `h * w`; since every cell is
enqueued at most once, this fuel covers every run the Python code completes,
and `none` models a run that raises (NumPy IndexError on an out-of-range
target index).
-/

namespace RusleLS

/-- The eight D8 neighbour offsets, in the order of `_NEIGHBORS`. -/
def NEIGHBORS : List (ℤ × ℤ) :=
  [(-1, -1), (-1, 0), (-1, 1), (0, -1), (0, 1), (1, -1), (1, 0), (1, 1)]

/-- Row offset of neighbour `k`. -/
def dI (k : Fin 8) : ℤ := (NEIGHBORS.getD k.val (0, 0)).1

/-- Column offset of neighbour `k`. -/
def dJ (k : Fin 8) : ℤ := (NEIGHBORS.getD k.val (0, 0)).2

/-- NumPy integer indexing into an axis of length `n`: indices in `[0, n)`
are taken as is, indices in `[-n, 0)` wrap around, anything else raises
(modelled as `none`). -/
def npIndex (n : ℕ) (x : ℤ) : Option ℕ :=
  if 0 ≤ x ∧ x < (n : ℤ) then some x.toNat
  else if -(n : ℤ) ≤ x ∧ x < 0 then some (x + n).toNat
  else none

/-- All cells of an `h × w` raster in row-major order (the order of every
`for i in range(h): for j in range(w)` scan in the script). -/
def cellsRM (h w : ℕ) : List (ℕ × ℕ) :=
  (List.range h).flatMap fun i => (List.range w).map fun j => (i, j)

/-- The same cells as a finset. -/
def cellsFS (h w : ℕ) : Finset (ℕ × ℕ) := Finset.range h ×ˢ Finset.range w

/-- Interior cell: both loops `for i in range(1, h-1): for j in range(1, w-1)`
of the script range exactly over these. -/
def interior (h w : ℕ) (c : ℕ × ℕ) : Prop :=
  1 ≤ c.1 ∧ c.1 + 1 < h ∧ 1 ≤ c.2 ∧ c.2 + 1 < w

instance interiorDec (h w : ℕ) (c : ℕ × ℕ) : Decidable (interior h w c) := by
  unfold interior; infer_instance

/-- A DEM raster: `z i j = none` models a NaN / no-data sample.  Values of
`z` outside `[0,h) × [0,w)` have no counterpart in the NumPy array and are
never read by the embedded operations. -/
structure ElevGrid where
  h : ℕ
  w : ℕ
  z : ℕ → ℕ → Option ℚ

/-- The defined values among the four cardinal neighbours, i.e. the non-NaN
entries of `up, dn, lf, rt` at one position in `light_carve` (each is the
rolled array with the wrapped border row or column overwritten by NaN). -/
def cardinalVals (h w : ℕ) (z : ℕ → ℕ → Option ℚ) (i j : ℕ) : List ℚ :=
  ([if i = 0 then none else z (i - 1) j,
    if i + 1 = h then none else z (i + 1) j,
    if j = 0 then none else z i (j - 1),
    if j + 1 = w then none else z i (j + 1)] : List (Option ℚ)).filterMap id

/-- One pass of the `light_carve` loop.  Only `arr[mask]` is assigned, so a
position holding a value keeps it; a no-data position receives the `nanmean`
of its cardinal neighbours when at least one holds a value (`np.where` keeps
NaN where the mean itself is NaN). -/
def carvePass (h w : ℕ) (z : ℕ → ℕ → Option ℚ) : ℕ → ℕ → Option ℚ := fun i j =>
  match z i j with
  | some q => some q
  | none =>
    let vs := cardinalVals h w z i j
    if vs = [] then none else some (vs.sum / vs.length)

/-- Function `light_carve`: the loop body runs at most twice; the early
`return` on a mask-free input and the `break` on a mask-free intermediate are
both no-ops on the resulting values, since a pass never changes a position
holding a value, so two unconditional passes compute the same raster
pointwise. -/
def light_carve (g : ElevGrid) : ℕ → ℕ → Option ℚ :=
  carvePass g.h g.w (carvePass g.h g.w g.z)

/-- Neighbour of a cell by plain offset arithmetic.  For the interior cells
it is applied to, this agrees with NumPy indexing (no index is negative or
out of range there). -/
def nbr (c : ℕ × ℕ) (k : Fin 8) : ℕ × ℕ :=
  (((c.1 : ℤ) + dI k).toNat, ((c.2 : ℤ) + dJ k).toNat)

/-- Inner loop of `d8_flow_direction` at one cell with value `zij`: scan the
eight neighbours in order, skip NaN ones, keep the first strictly largest
drop (`drop > max_drop` with `max_drop` starting at `0.0`). -/
def d8At (g : ElevGrid) (i j : ℕ) : Option (Fin 8) :=
  match g.z i j with
  | none => none
  | some zij =>
    ((List.finRange 8).foldl
      (fun st k =>
        match g.z (nbr (i, j) k).1 (nbr (i, j) k).2 with
        | none => st
        | some znb => if st.1 < zij - znb then (zij - znb, some k) else st)
      ((0 : ℚ), (none : Option (Fin 8)))).2

/-- Function `d8_flow_direction`: `dir_idx` starts at `-1` everywhere and is
assigned only at interior cells, so border rows/columns and no-data cells
keep `-1` (`none`). -/
def d8dir (g : ElevGrid) : ℕ → ℕ → Option (Fin 8) := fun i j =>
  if interior g.h g.w (i, j) then d8At g i j else none

/-- A D8 direction raster (`int8` array with values `-1` and `0..7`). -/
structure DirGrid where
  h : ℕ
  w : ℕ
  dir : ℕ → ℕ → Option (Fin 8)

/-- The direction raster the pipeline feeds into the accumulation step. -/
def d8Grid (g : ElevGrid) : DirGrid := ⟨g.h, g.w, d8dir g⟩

/-- Target cell `(i+di, j+dj)` of a defined direction, under NumPy indexing
(`none` = IndexError). -/
def tgt (d : DirGrid) (c : ℕ × ℕ) (k : Fin 8) : Option (ℕ × ℕ) :=
  match npIndex d.h ((c.1 : ℤ) + dI k), npIndex d.w ((c.2 : ℤ) + dJ k) with
  | some a, some b => some (a, b)
  | _, _ => none

/-- The interior cells, row-major. -/
def interiorList (d : DirGrid) : List (ℕ × ℕ) :=
  (cellsRM d.h d.w).filter fun c => decide (interior d.h d.w c)

/-- The interior cells whose direction drains into `c`: the in-edges counted
by the first loop of `flow_accumulation_cells` (that loop scans interior
cells only). -/
def predsList (d : DirGrid) (c : ℕ × ℕ) : List (ℕ × ℕ) :=
  (interiorList d).filter fun p =>
    decide (∃ k, d.dir p.1 p.2 = some k ∧ tgt d p k = some c)

/-- The in-degree array of `flow_accumulation_cells`: one count per in-edge
from an interior cell. -/
def indeg0 (d : DirGrid) (i j : ℕ) : ℤ := (predsList d (i, j)).length

/-- State of the accumulation loop.  `popped` records the processed cells in
pop order; it instruments the specification and does not influence `indeg`,
`acc` or `queue`. -/
structure KState where
  indeg : ℕ → ℕ → ℤ
  acc : ℕ → ℕ → ℚ
  queue : List (ℕ × ℕ)
  popped : List (ℕ × ℕ)

/-- Pointwise update of a two-argument array. -/
def upd2 {α : Type} (f : ℕ → ℕ → α) (c : ℕ × ℕ) (v : α) : ℕ → ℕ → α :=
  fun i j => if i = c.1 ∧ j = c.2 then v else f i j

/-- One iteration of the `while q` loop on the popped cell `c` (already
removed from `s.queue`): if the direction is defined, add the cell's
accumulation to its target, decrement the target's in-degree, and append the
target to the queue when the decremented in-degree is zero. -/
def kstep (d : DirGrid) (s : KState) (c : ℕ × ℕ) : Option KState :=
  match d.dir c.1 c.2 with
  | none => some { s with popped := s.popped ++ [c] }
  | some k =>
    match tgt d c k with
    | none => none
    | some t =>
      some { indeg := upd2 s.indeg t (s.indeg t.1 t.2 - 1)
             acc := upd2 s.acc t (s.acc t.1 t.2 + s.acc c.1 c.2)
             queue := if s.indeg t.1 t.2 - 1 = 0 then s.queue ++ [t] else s.queue
             popped := s.popped ++ [c] }

/-- The `while q` loop with explicit fuel (one unit per pop). -/
def krun (d : DirGrid) : ℕ → KState → Option KState
  | 0, s => if s.queue = [] then some s else none
  | f + 1, s =>
    match s.queue with
    | [] => some s
    | c :: rest =>
      match kstep d { s with queue := rest } c with
      | none => none
      | some s' => krun d f s'

/-- Initial state: in-degrees from interior cells, `acc` all ones (each cell
contributes itself), queue seeded with every zero in-degree cell in
row-major order. -/
def initState (d : DirGrid) : KState :=
  { indeg := fun i j => indeg0 d i j
    acc := fun _ _ => 1
    queue := (cellsRM d.h d.w).filter fun c => decide (indeg0 d c.1 c.2 = 0)
    popped := [] }

/-- Function `flow_accumulation_cells`.  Fuel `h * w` covers every run the
Python code completes: a cell is enqueued at most once (its in-degree
strictly decreases, so it passes through zero at most once), hence at most
`h * w` pops happen before the queue drains. -/
def flow_accumulation_cells (d : DirGrid) : Option (ℕ → ℕ → ℚ) :=
  (krun d (d.h * d.w) (initState d)).map KState.acc

/-- Sum of the final accumulation over the terminal cells (undefined
direction) of the raster. -/
def terminalAccSum (d : DirGrid) (a : ℕ → ℕ → ℚ) : ℚ :=
  ((cellsFS d.h d.w).filter fun c => d.dir c.1 c.2 = none).sum fun c => a c.1 c.2

/-- Script constant `M_EXP`. -/
def M_EXP : ℝ := 0.4

/-- Script constant `N_EXP`. -/
def N_EXP : ℝ := 1.3

/-- Script constant `MIN_SLOPE_DEG`. -/
def MIN_SLOPE_DEG : ℝ := 0.1

/-- NumPy `x ** y` for the float exponents used here (`0 < y`, `y` not an
integer): NaN (`none`) on a negative base, ordinary real power otherwise. -/
noncomputable def npPow (x y : ℝ) : Option ℝ :=
  if 0 ≤ x then some (x ^ y) else none

/-- Function `compute_ls`: `A = max(acc, 1) * cellsize`, slope filled with
`0.0` where masked then clamped below by `MIN_SLOPE_DEG`, converted to
radians, `L = (A/22.13) ** m`, `S = sin(slope_rad) ** n`, output `L * S`,
NaN cells (`none`) being the ones `np.ma.masked_invalid` masks. -/
noncomputable def compute_ls (acc_cells : ℕ → ℕ → ℝ) (slope_deg : ℕ → ℕ → Option ℝ)
    (cellsize_m : ℝ) (m_exp n_exp : ℝ) : ℕ → ℕ → Option ℝ := fun i j =>
  let A := max (acc_cells i j) 1 * cellsize_m
  let slope_safe := max ((slope_deg i j).getD 0) MIN_SLOPE_DEG
  let slope_rad := slope_safe * (Real.pi / 180)
  match npPow (A / 22.13) m_exp, npPow (Real.sin slope_rad) n_exp with
  | some L, some S => some (L * S)
  | _, _ => none

/-- Flow edge of a direction raster: from an in-bounds cell with a defined
direction to the cell that direction drains into.  Both the traversal of
`flow_accumulation_cells` (which follows every queued in-bounds cell's
direction) and the in-degree scan (which follows interior cells, a subset)
move along these edges. -/
def edgeRel (d : DirGrid) (a b : ℕ × ℕ) : Prop :=
  a.1 < d.h ∧ a.2 < d.w ∧ ∃ k, d.dir a.1 a.2 = some k ∧ tgt d a k = some b

instance edgeRelDec (d : DirGrid) (a b : ℕ × ℕ) : Decidable (edgeRel d a b) := by
  unfold edgeRel; infer_instance

/-- No flow path returns to its starting cell. -/
def Acyclic (d : DirGrid) : Prop := ∀ c, ¬ Relation.TransGen (edgeRel d) c c

/-- Every defined direction of the raster sits at an interior cell — true of
every raster `d8_flow_direction` produces (it assigns directions inside the
interior double loop only). -/
def dirsInterior (d : DirGrid) : Prop :=
  ∀ i, i < d.h → ∀ j, j < d.w → d.dir i j ≠ none → interior d.h d.w (i, j)

instance dirsInteriorDec (d : DirGrid) : Decidable (dirsInterior d) := by
  unfold dirsInterior; infer_instance

/-- Synthetic 3×3 DEM `[[9,8,7],[8,5,6],[7,6,4]]` of the spec's concrete
scenario. -/
def G6 : ElevGrid :=
  ⟨3, 3, fun i j =>
    ((([[some (9 : ℚ), some 8, some 7],
        [some 8, some 5, some 6],
        [some 7, some 6, some 4]] : List (List (Option ℚ))).getD i []).getD j none)⟩

/-- A 5×4 direction raster, acyclic, whose border cell `(0,1)` carries a
defined direction: its edge is followed by the traversal but not counted in
any in-degree, which re-orders the pops and strands mass at the already
processed cell `(1,1)`. -/
def GC1 : DirGrid :=
  ⟨5, 4, fun i j =>
    if (i, j) = (0, 1) then some 6
    else if (i, j) = (3, 1) then some 1
    else if (i, j) = (2, 1) then some 1
    else if (i, j) = (1, 1) then some 4
    else none⟩

/-- A rank function witnessing that `GC1` has no cycle. -/
def rankGC1 : ℕ × ℕ → ℕ := fun c =>
  if c = (1, 2) then 0 else if c = (1, 1) then 1
  else if c = (2, 1) then 2 else if c = (0, 1) then 2
  else if c = (3, 1) then 3 else 0

/-- A 3×4 direction raster whose two interior cells point at each other: the
artificial two-cell mutual pointer of the spec's cycle scenario. -/
def GC3 : DirGrid :=
  ⟨3, 4, fun i j =>
    if (i, j) = (1, 1) then some 4
    else if (i, j) = (1, 2) then some 3
    else none⟩

/-- A 3×3 grid whose centre cell is no-data and every other cell is 4. -/
def G8 : ElevGrid :=
  ⟨3, 3, fun i j => if (i, j) = (1, 1) then none else some 4⟩

/-- A 3×3 grid with a single-cell pit of elevation 1 at the centre,
surrounded by cells of elevation 5, and no no-data cell. -/
def G7 : ElevGrid :=
  ⟨3, 3, fun i j => if (i, j) = (1, 1) then some 1 else some 5⟩

/-- A 1×1 direction raster (single cell, undefined direction). -/
def D1 : DirGrid := ⟨1, 1, fun _ _ => none⟩

end RusleLS

namespace RusleLS

/-! ## Basic facts about cells, offsets and indexing -/

lemma dIJ_bounds (k : Fin 8) : (-1 ≤ dI k ∧ dI k ≤ 1) ∧ (-1 ≤ dJ k ∧ dJ k ≤ 1) := by
  revert k; decide

lemma dIJ_ne_zero (k : Fin 8) : ¬(dI k = 0 ∧ dJ k = 0) := by
  revert k; decide

lemma mem_cellsRM {h w : ℕ} {c : ℕ × ℕ} : c ∈ cellsRM h w ↔ c.1 < h ∧ c.2 < w := by
  obtain ⟨i, j⟩ := c
  simp [cellsRM, List.mem_flatMap, List.mem_range]

lemma cellsRM_nodup (h w : ℕ) : (cellsRM h w).Nodup := by
  unfold cellsRM
  refine List.nodup_flatMap.2 ⟨fun i _ => ?_, ?_⟩
  · exact (List.nodup_range _).map fun a b hab => by simpa using hab
  · refine (List.nodup_range h).imp ?_
    intro a b hab
    simp only [Function.onFun, List.disjoint_left]
    rintro ⟨x, y⟩ hx hy
    simp only [List.mem_map, List.mem_range] at hx hy
    obtain ⟨j₁, -, h₁⟩ := hx
    obtain ⟨j₂, -, h₂⟩ := hy
    apply hab
    injection h₁ with ha₁ hb₁
    injection h₂ with ha₂ hb₂
    exact ha₁.trans ha₂.symm

lemma mem_cellsFS {h w : ℕ} {c : ℕ × ℕ} : c ∈ cellsFS h w ↔ c.1 < h ∧ c.2 < w := by
  obtain ⟨i, j⟩ := c
  simp [cellsFS, Finset.mem_product]

lemma cellsFS_card (h w : ℕ) : (cellsFS h w).card = h * w := by
  simp [cellsFS]

lemma npIndex_lt {n : ℕ} {x : ℤ} {m : ℕ} (h : npIndex n x = some m) : m < n := by
  unfold npIndex at h
  split_ifs at h with h1 h2 <;> simp_all <;> omega

lemma npIndex_of_lt {n : ℕ} {x : ℤ} (h0 : 0 ≤ x) (hn : x < (n : ℤ)) :
    npIndex n x = some x.toNat := by
  simp [npIndex, h0, hn]

lemma tgt_mem {d : DirGrid} {c : ℕ × ℕ} {k : Fin 8} {t : ℕ × ℕ}
    (h : tgt d c k = some t) : t.1 < d.h ∧ t.2 < d.w := by
  unfold tgt at h
  cases h1 : npIndex d.h ((c.1 : ℤ) + dI k) with
  | none => rw [h1] at h; exact absurd h (by simp)
  | some a =>
    cases h2 : npIndex d.w ((c.2 : ℤ) + dJ k) with
    | none => rw [h1, h2] at h; exact absurd h (by simp)
    | some b =>
      rw [h1, h2] at h
      cases h
      exact ⟨npIndex_lt h1, npIndex_lt h2⟩

lemma interior_coords {h w : ℕ} {c : ℕ × ℕ} (hc : interior h w c) (k : Fin 8) :
    0 ≤ (c.1 : ℤ) + dI k ∧ (c.1 : ℤ) + dI k < (h : ℤ) ∧
    0 ≤ (c.2 : ℤ) + dJ k ∧ (c.2 : ℤ) + dJ k < (w : ℤ) := by
  obtain ⟨⟨hi1, hi2⟩, hj⟩ := dIJ_bounds k
  obtain ⟨h1, h2, h3, h4⟩ := hc
  omega

lemma tgt_interior {d : DirGrid} {c : ℕ × ℕ} (hc : interior d.h d.w c) (k : Fin 8) :
    tgt d c k = some (nbr c k) := by
  obtain ⟨h1, h2, h3, h4⟩ := interior_coords hc k
  unfold tgt nbr
  rw [npIndex_of_lt h1 h2, npIndex_of_lt h3 h4]

lemma nbr_mem {h w : ℕ} {c : ℕ × ℕ} (hc : interior h w c) (k : Fin 8) :
    (nbr c k).1 < h ∧ (nbr c k).2 < w := by
  obtain ⟨h1, h2, h3, h4⟩ := interior_coords hc k
  unfold nbr
  constructor <;> simp <;> omega

lemma nbr_ne {h w : ℕ} {c : ℕ × ℕ} (hc : interior h w c) (k : Fin 8) :
    nbr c k ≠ c := by
  have hne := dIJ_ne_zero k
  obtain ⟨⟨hi1, hi2⟩, ⟨hj1, hj2⟩⟩ := dIJ_bounds k
  obtain ⟨h1, h2, h3, h4⟩ := hc
  unfold nbr
  intro he
  rw [Prod.ext_iff] at he
  obtain ⟨ha, hb⟩ := he
  simp only at ha hb
  omega

/-! ## A fold invariant for the direction scan -/

lemma foldl_preserve {α β : Type _} (f : β → α → β) (P : β → Prop)
    (l : List α) (b : β) (hb : P b) (hstep : ∀ b a, P b → P (f b a)) :
    P (l.foldl f b) := by
  induction l generalizing b with
  | nil => exact hb
  | cons x xs ih => exact ih _ (hstep _ _ hb)

lemma d8At_spec {g : ElevGrid} {i j : ℕ} {k : Fin 8} (h : d8At g i j = some k) :
    ∃ za zb, g.z i j = some za ∧
      g.z (nbr (i, j) k).1 (nbr (i, j) k).2 = some zb ∧ zb < za := by
  unfold d8At at h
  cases hz : g.z i j with
  | none => rw [hz] at h; exact absurd h (by simp)
  | some zij =>
    rw [hz] at h
    simp only at h
    have hinv := foldl_preserve
      (fun st k' =>
        match g.z (nbr (i, j) k').1 (nbr (i, j) k').2 with
        | none => st
        | some znb => if st.1 < zij - znb then (zij - znb, some k') else st)
      (fun st : ℚ × Option (Fin 8) => 0 ≤ st.1 ∧
        ∀ k', st.2 = some k' → ∃ zb,
          g.z (nbr (i, j) k').1 (nbr (i, j) k').2 = some zb ∧
          st.1 = zij - zb ∧ zb < zij)
      (List.finRange 8)
      ((0 : ℚ), (none : Option (Fin 8)))
      ⟨le_refl 0, by simp⟩
      (by
        rintro ⟨md, best⟩ k' ⟨hmd, hbest⟩
        cases hnb : g.z (nbr (i, j) k').1 (nbr (i, j) k').2 with
        | none => simp only [hnb]; exact ⟨hmd, hbest⟩
        | some znb =>
          simp only [hnb]
          split_ifs with hlt
          · refine ⟨le_of_lt (lt_of_le_of_lt hmd hlt), ?_⟩
            intro k'' hk''
            cases hk''
            exact ⟨znb, hnb, rfl, by linarith⟩
          · exact ⟨hmd, hbest⟩)
    obtain ⟨-, hsome⟩ := hinv
    obtain ⟨zb, hzb, -, hlt⟩ := hsome k h
    exact ⟨zij, zb, rfl, hzb, hlt⟩

lemma d8dir_interior {g : ElevGrid} {i j : ℕ} {k : Fin 8}
    (h : d8dir g i j = some k) : interior g.h g.w (i, j) := by
  unfold d8dir at h
  split_ifs at h with hi
  exact hi

lemma d8dir_drop {g : ElevGrid} {i j : ℕ} {k : Fin 8} (h : d8dir g i j = some k) :
    ∃ za zb, g.z i j = some za ∧
      g.z (nbr (i, j) k).1 (nbr (i, j) k).2 = some zb ∧ zb < za := by
  unfold d8dir at h
  split_ifs at h with hi
  exact d8At_spec h

/-! ## Facts about the depression pass -/

lemma carvePass_some {h w : ℕ} {z : ℕ → ℕ → Option ℚ} {i j : ℕ} {q : ℚ}
    (hz : z i j = some q) : carvePass h w z i j = some q := by
  unfold carvePass
  rw [hz]

lemma light_carve_some {g : ElevGrid} {i j : ℕ} {q : ℚ}
    (hz : g.z i j = some q) : light_carve g i j = some q :=
  carvePass_some (carvePass_some hz)

/-! ## Claims about the depression pass -/

/-- C10.  Frame property of `light_carve`: a cell holding a value keeps it
unchanged through both passes (only `arr[mask]`, the no-data positions, is
ever assigned), and a raster with no no-data cell is returned unchanged. -/
theorem C10_light_carve_frame (g : ElevGrid) :
    (∀ i j q, g.z i j = some q → light_carve g i j = some q) ∧
    ((∀ i j, g.z i j ≠ none) → ∀ i j, light_carve g i j = g.z i j) := by
  refine ⟨fun i j q hq => light_carve_some hq, fun hall i j => ?_⟩
  cases hz : g.z i j with
  | none => exact absurd hz (hall i j)
  | some q => exact light_carve_some hz

/-- C8 counterexample.  The centre cell of `G8` is no-data on input, yet
`light_carve` returns a value there (the mean 4 of its four valid cardinal
neighbours): a no-data cell does not remain no-data. -/
theorem C8_counterexample : G8.z 1 1 = none ∧ light_carve G8 1 1 = some 4 := by
  constructor
  · rfl
  · decide!

/-- C8 amended.  No-data cells are excluded from the neighbour averages (the
`nanmean` runs over the defined cardinal neighbours only), and no valid cell
ever becomes no-data (output no-data cells were already no-data on input);
but a no-data cell with at least one defined cardinal neighbour is filled
with that mean rather than kept no-data. -/
theorem C8_nodata_behaviour (g : ElevGrid) :
    (∀ i j, light_carve g i j = none → g.z i j = none) ∧
    (∀ i j, g.z i j = none →
      carvePass g.h g.w g.z i j =
        if cardinalVals g.h g.w g.z i j = [] then none
        else some ((cardinalVals g.h g.w g.z i j).sum /
          (cardinalVals g.h g.w g.z i j).length)) := by
  constructor
  · intro i j hnone
    cases hz : g.z i j with
    | none => rfl
    | some q => rw [light_carve_some hz] at hnone; cases hnone
  · intro i j hz
    unfold carvePass
    rw [hz]

/-- C7 (code evaluated at the failing input).  `G7` holds a single-cell pit
of elevation 1 at `(1,1)`, strictly below all eight neighbours, and no
no-data cell; `light_carve` returns every cell unchanged — the pit is not
raised — and `d8_flow_direction` then leaves the pit cell undefined (`-1`),
contradicting the spec's demand that the filler resolve the pit and the
resolver assign it a defined direction. -/
theorem C7_pit_not_resolved :
    G7.z 1 1 = some 1 ∧
    (∀ k : Fin 8, ∃ q, G7.z (nbr (1, 1) k).1 (nbr (1, 1) k).2 = some q ∧ (1 : ℚ) < q) ∧
    (∀ i, i < 3 → ∀ j, j < 3 → light_carve G7 i j = G7.z i j) ∧
    d8dir G7 1 1 = none := by
  refine ⟨rfl, by decide!, by decide!, by decide!⟩

/-! ## Claims about the direction scan -/

/-- C2.  A defined D8 direction always points to a neighbour with elevation
less than or equal to (indeed strictly less than) the cell's own. -/
theorem C2_flow_never_uphill (g : ElevGrid) (i j : ℕ) (k : Fin 8)
    (h : d8dir g i j = some k) :
    ∃ za zb, g.z i j = some za ∧
      g.z (nbr (i, j) k).1 (nbr (i, j) k).2 = some zb ∧ zb ≤ za := by
  obtain ⟨za, zb, h1, h2, h3⟩ := d8dir_drop h
  exact ⟨za, zb, h1, h2, le_of_lt h3⟩

/-- C2 witness: the interior cell of the synthetic DEM `G6` drains to its
lowest neighbour, whose elevation is at most its own. -/
theorem C2_witness :
    d8dir G6 1 1 = some 7 ∧
    ∃ za zb, G6.z 1 1 = some za ∧
      G6.z (nbr (1, 1) 7).1 (nbr (1, 1) 7).2 = some zb ∧ zb ≤ za :=
  ⟨by decide!, C2_flow_never_uphill G6 1 1 7 (by decide!)⟩

/-! ## Claims about the accumulation values -/

lemma kstep_acc_ge_one {d : DirGrid} {s s' : KState} {c : ℕ × ℕ}
    (h : kstep d s c = some s') (hs : ∀ i j, 1 ≤ s.acc i j) :
    ∀ i j, 1 ≤ s'.acc i j := by
  unfold kstep at h
  cases hd : d.dir c.1 c.2 with
  | none =>
    rw [hd] at h
    cases h
    exact hs
  | some k =>
    rw [hd] at h
    simp only at h
    cases ht : tgt d c k with
    | none => rw [ht] at h; cases h
    | some t =>
      rw [ht] at h
      cases h
      intro i j
      simp only [upd2]
      split_ifs with hij
      · have h1 := hs t.1 t.2
        have h2 := hs c.1 c.2
        linarith
      · exact hs i j

lemma krun_acc_ge_one (d : DirGrid) :
    ∀ (f : ℕ) (s s' : KState), krun d f s = some s' →
      (∀ i j, 1 ≤ s.acc i j) → ∀ i j, 1 ≤ s'.acc i j := by
  intro f
  induction f with
  | zero =>
    intro s s' h hs
    unfold krun at h
    split_ifs at h
    cases h
    exact hs
  | succ f ih =>
    intro s s' h hs
    unfold krun at h
    cases hq : s.queue with
    | nil => rw [hq] at h; cases h; exact hs
    | cons c rest =>
      rw [hq] at h
      simp only at h
      cases hk : kstep d { s with queue := rest } c with
      | none => rw [hk] at h; cases h
      | some s₁ =>
        rw [hk] at h
        exact ih s₁ s' h (kstep_acc_ge_one hk hs)

/-- C5.  Whenever `flow_accumulation_cells` completes, every accumulation
value is at least 1: `acc` starts at 1 everywhere and the loop only ever
adds values that are themselves at least 1. -/
theorem C5_acc_ge_one (d : DirGrid) (a : ℕ → ℕ → ℚ)
    (h : flow_accumulation_cells d = some a) : ∀ i j, 1 ≤ a i j := by
  unfold flow_accumulation_cells at h
  cases hk : krun d (d.h * d.w) (initState d) with
  | none => rw [hk] at h; cases h
  | some s' =>
    rw [hk] at h
    cases h
    exact krun_acc_ge_one d _ _ _ hk (fun i j => le_refl 1)

/-- C5 witness: the single-cell raster `D1` completes with accumulation 1 at
its only cell. -/
theorem C5_witness :
    flow_accumulation_cells D1 = some (fun _ _ => (1 : ℚ)) ∧
    (1 : ℚ) ≤ (fun _ _ : ℕ => (1 : ℚ)) 0 0 :=
  ⟨rfl, C5_acc_ge_one D1 (fun _ _ => 1) rfl 0 0⟩

/-- C6 counterexample.  On the spec's synthetic DEM `[[9,8,7],[8,5,6],[7,6,4]]`
the outlet cell `(2,2)` accumulates exactly 2, not 9, and the corner cell
`(0,0)` gets no direction at all: only the single interior cell is assigned
one, so the claim's scenario fails on both conjuncts. -/
theorem C6_counterexample :
    (flow_accumulation_cells (d8Grid G6)).map (fun a => a 2 2) = some 2 ∧
    ¬ (2 : ℚ) = 9 ∧ d8dir G6 0 0 = none := by
  refine ⟨by decide!, by decide!, by decide!⟩

/-- C6 amended.  On the synthetic DEM the only interior cell `(1,1)` is
assigned direction 7, pointing at the outlet `(2,2)`, its unique strictly
lowest neighbour; every border cell keeps an undefined direction; the outlet
accumulates exactly 2 (itself plus the interior cell) and every other cell
stays at 1. -/
theorem C6_concrete_scenario :
    d8dir G6 1 1 = some 7 ∧ nbr (1, 1) 7 = (2, 2) ∧
    (∀ k : Fin 8, ∀ q, G6.z (nbr (1, 1) k).1 (nbr (1, 1) k).2 = some q →
      k ≠ 7 → (4 : ℚ) < q) ∧
    (∀ i, i < 3 → ∀ j, j < 3 → ¬ interior 3 3 (i, j) → d8dir G6 i j = none) ∧
    (flow_accumulation_cells (d8Grid G6)).map (fun a => a 2 2) = some 2 ∧
    (∀ i, i < 3 → ∀ j, j < 3 → ¬ (i, j) = (2, 2) →
      (flow_accumulation_cells (d8Grid G6)).map (fun a => a i j) = some 1) := by
  refine ⟨by decide!, by decide!, by decide!, by decide!, by decide!, by decide!⟩

/-! ## Claims about the LS formula -/

/-- C9.  Every defined output of `compute_ls` is exactly
`L * S = (max(acc,1) * cellsize / 22.13) ** m * sin(slope_rad) ** n`, with
the masked slope treated as 0 and clamped below by the 0.1-degree floor, and
every defined output is non-negative (both factors are real powers of
non-negative bases — a negative base would have produced NaN, i.e. a masked
cell). -/
theorem C9_compute_ls_spec (acc_cells : ℕ → ℕ → ℝ) (slope_deg : ℕ → ℕ → Option ℝ)
    (cellsize_m m_exp n_exp : ℝ) (i j : ℕ) (v : ℝ)
    (h : compute_ls acc_cells slope_deg cellsize_m m_exp n_exp i j = some v) :
    v = (max (acc_cells i j) 1 * cellsize_m / 22.13) ^ m_exp *
        Real.sin (max ((slope_deg i j).getD 0) MIN_SLOPE_DEG * (Real.pi / 180)) ^ n_exp ∧
    0 ≤ v := by
  unfold compute_ls npPow at h
  simp only at h
  split_ifs at h with h1 h2
  cases h
  exact ⟨rfl, mul_nonneg (Real.rpow_nonneg h1 _) (Real.rpow_nonneg h2 _)⟩

/-- C9 witness: with unit accumulation, a 180-degree slope sample and cell
size 22.13, the output is defined and the theorem applies. -/
theorem C9_witness :
    compute_ls (fun _ _ => 1) (fun _ _ => some 180) 22.13 M_EXP N_EXP 0 0 =
      some ((max ((1 : ℝ)) 1 * 22.13 / 22.13) ^ M_EXP *
        Real.sin (max ((some (180 : ℝ)).getD 0) MIN_SLOPE_DEG * (Real.pi / 180)) ^ N_EXP) ∧
    0 ≤ (max ((1 : ℝ)) 1 * 22.13 / 22.13) ^ M_EXP *
        Real.sin (max ((some (180 : ℝ)).getD 0) MIN_SLOPE_DEG * (Real.pi / 180)) ^ N_EXP := by
  have hsl : max ((some (180 : ℝ)).getD 0) MIN_SLOPE_DEG * (Real.pi / 180) = Real.pi := by
    simp only [Option.getD_some, MIN_SLOPE_DEG]
    rw [max_eq_left (by norm_num)]
    field_simp
  have h1 : (0 : ℝ) ≤ max ((1 : ℝ)) 1 * 22.13 / 22.13 := by norm_num
  have h2 : (0 : ℝ) ≤ Real.sin (max ((some (180 : ℝ)).getD 0) MIN_SLOPE_DEG * (Real.pi / 180)) := by
    rw [hsl, Real.sin_pi]
  have h : compute_ls (fun _ _ => 1) (fun _ _ => some 180) 22.13 M_EXP N_EXP 0 0 =
      some ((max ((1 : ℝ)) 1 * 22.13 / 22.13) ^ M_EXP *
        Real.sin (max ((some (180 : ℝ)).getD 0) MIN_SLOPE_DEG * (Real.pi / 180)) ^ N_EXP) := by
    unfold compute_ls npPow
    simp only
    rw [if_pos h1, if_pos h2]
  exact ⟨h, (C9_compute_ls_spec (fun _ _ => 1) (fun _ _ => some 180) 22.13 M_EXP N_EXP 0 0 _ h).2⟩

/-! ## The in-edge list and its counting -/

lemma predsList_nodup (d : DirGrid) (c : ℕ × ℕ) : (predsList d c).Nodup :=
  ((cellsRM_nodup d.h d.w).filter _).filter _

lemma mem_interiorList {d : DirGrid} {p : ℕ × ℕ} :
    p ∈ interiorList d ↔ interior d.h d.w p := by
  unfold interiorList
  rw [List.mem_filter]
  simp only [decide_eq_true_eq]
  constructor
  · exact fun h => h.2
  · intro h
    refine ⟨mem_cellsRM.2 ?_, h⟩
    obtain ⟨h1, h2, h3, h4⟩ := h
    omega

lemma mem_predsList {d : DirGrid} {c p : ℕ × ℕ} :
    p ∈ predsList d c ↔
      interior d.h d.w p ∧ ∃ k, d.dir p.1 p.2 = some k ∧ tgt d p k = some c := by
  unfold predsList
  rw [List.mem_filter]
  simp only [decide_eq_true_eq, mem_interiorList]

lemma edge_of_preds {d : DirGrid} {c p : ℕ × ℕ} (h : p ∈ predsList d c) :
    edgeRel d p c := by
  obtain ⟨⟨h1, h2, h3, h4⟩, hk⟩ := mem_predsList.1 h
  exact ⟨by omega, by omega, hk⟩

lemma preds_of_edge {d : DirGrid} {c p : ℕ × ℕ} (hint : interior d.h d.w p)
    (h : edgeRel d p c) : p ∈ predsList d c :=
  mem_predsList.2 ⟨hint, h.2.2⟩

lemma preds_unique {d : DirGrid} {c c' p : ℕ × ℕ}
    (h : p ∈ predsList d c) (h' : p ∈ predsList d c') : c = c' := by
  obtain ⟨-, k, hk, ht⟩ := mem_predsList.1 h
  obtain ⟨-, k', hk', ht'⟩ := mem_predsList.1 h'
  cases hk.symm.trans hk'
  cases ht.symm.trans ht'
  rfl

/-- Number of in-edges of `c` from interior cells not yet processed: the
value the loop keeps in `indeg` for `c`. -/
def poppedCount (d : DirGrid) (P : List (ℕ × ℕ)) (c : ℕ × ℕ) : ℕ :=
  ((predsList d c).filter fun p => decide (p ∉ P)).length

lemma filter_not_mem_append {l P : List (ℕ × ℕ)} {c₀ : ℕ × ℕ} (hc : c₀ ∉ l) :
    (l.filter fun p => decide (p ∉ P ++ [c₀])) = l.filter fun p => decide (p ∉ P) := by
  apply List.filter_congr
  intro p hp
  have hne : p ≠ c₀ := fun he => hc (he ▸ hp)
  simp [List.mem_append, hne]

lemma filter_not_mem_append_count {l P : List (ℕ × ℕ)} {c₀ : ℕ × ℕ}
    (hnd : l.Nodup) (hmem : c₀ ∈ l) (hP : c₀ ∉ P) :
    ((l.filter fun p => decide (p ∉ P ++ [c₀])).length) + 1 =
      (l.filter fun p => decide (p ∉ P)).length := by
  induction l with
  | nil => cases hmem
  | cons a l ih =>
    have ha : a ∉ l := (List.nodup_cons.1 hnd).1
    have hnd' : l.Nodup := (List.nodup_cons.1 hnd).2
    rcases List.mem_cons.1 hmem with he | hl
    · rw [List.filter_cons_of_neg (by simp [he]),
          List.filter_cons_of_pos (by simpa [← he] using hP),
          filter_not_mem_append (he ▸ ha), List.length_cons]
    · have hne : a ≠ c₀ := fun he => ha (he ▸ hl)
      by_cases hP' : a ∈ P
      · rw [List.filter_cons_of_neg (by simp [hP']),
            List.filter_cons_of_neg (by simp [hP'])]
        exact ih hnd' hl
      · rw [List.filter_cons_of_pos (by simp [hP', hne]),
            List.filter_cons_of_pos (by simpa using hP'),
            List.length_cons, List.length_cons]
        rw [← ih hnd' hl]

lemma poppedCount_zero_iff {d : DirGrid} {P : List (ℕ × ℕ)} {c : ℕ × ℕ} :
    poppedCount d P c = 0 ↔ ∀ p ∈ predsList d c, p ∈ P := by
  unfold poppedCount
  rw [List.length_eq_zero, List.filter_eq_nil_iff]
  constructor
  · intro h p hp
    by_contra hnp
    exact absurd (by simpa using hnp) (by simpa using h p hp)
  · intro h p hp
    simp [h p hp]

/-! ## The drain-loop invariant -/

/-- Invariant of the Kahn loop state, for a raster whose defined directions
all sit at interior cells. -/
structure Inv (d : DirGrid) (s : KState) : Prop where
  qnd : s.queue.Nodup
  pnd : s.popped.Nodup
  disj : ∀ c ∈ s.queue, c ∉ s.popped
  qmem : ∀ c ∈ s.queue, c.1 < d.h ∧ c.2 < d.w
  pmem : ∀ c ∈ s.popped, c.1 < d.h ∧ c.2 < d.w
  ideg : ∀ c : ℕ × ℕ, c.1 < d.h → c.2 < d.w →
    s.indeg c.1 c.2 = (poppedCount d s.popped c : ℤ)
  preds_done : ∀ c : ℕ × ℕ, c ∈ s.queue ∨ c ∈ s.popped →
    ∀ p ∈ predsList d c, p ∈ s.popped
  ready : ∀ c : ℕ × ℕ, c.1 < d.h → c.2 < d.w →
    (∀ p ∈ predsList d c, p ∈ s.popped) → c ∉ s.popped → c ∈ s.queue
  mass : (cellsFS d.h d.w).sum
      (fun c => if c ∈ s.popped ∧ d.dir c.1 c.2 ≠ none then 0 else s.acc c.1 c.2)
    = ((d.h * d.w : ℕ) : ℚ)
  untouched : ∀ c, Relation.TransGen (edgeRel d) c c → c ∉ s.queue ∧ c ∉ s.popped

/-- Decomposition of a cycle: a cell on a cycle has an in-edge from a cell
that is itself on a cycle. -/
lemma cycle_pred {d : DirGrid} {c : ℕ × ℕ}
    (h : Relation.TransGen (edgeRel d) c c) :
    ∃ p, edgeRel d p c ∧ Relation.TransGen (edgeRel d) p p := by
  obtain ⟨b, hcb, hbc⟩ := (Relation.TransGen.tail'_iff).1 h
  exact ⟨b, hbc, Relation.TransGen.trans_left (Relation.TransGen.single hbc) hcb⟩

lemma not_preds_of_none {d : DirGrid} {c : ℕ × ℕ} (hd : d.dir c.1 c.2 = none)
    (x : ℕ × ℕ) : c ∉ predsList d x := by
  intro h
  obtain ⟨-, k, hk, -⟩ := mem_predsList.1 h
  rw [hd] at hk
  cases hk

lemma upd2_self {α : Type} (f : ℕ → ℕ → α) (t : ℕ × ℕ) (v : α) :
    upd2 f t v t.1 t.2 = v := by
  simp [upd2]

lemma upd2_ne {α : Type} (f : ℕ → ℕ → α) (t : ℕ × ℕ) (v : α) {x : ℕ × ℕ}
    (hx : x ≠ t) : upd2 f t v x.1 x.2 = f x.1 x.2 := by
  unfold upd2
  rw [if_neg]
  intro hc
  exact hx (Prod.ext_iff.2 ⟨hc.1, hc.2⟩)

/-- One loop iteration preserves the invariant (and never raises), for a
raster whose defined directions all sit at interior cells. -/
lemma kstep_inv {d : DirGrid} (hdi : dirsInterior d) {s : KState} {c : ℕ × ℕ}
    {rest : List (ℕ × ℕ)} (hq : s.queue = c :: rest) (hinv : Inv d s) :
    ∃ s', kstep d { s with queue := rest } c = some s' ∧ Inv d s' ∧
      s'.popped = s.popped ++ [c] := by
  have hcq : c ∈ s.queue := by rw [hq]; exact List.mem_cons_self ..
  have hcb := hinv.qmem c hcq
  have hcP : c ∉ s.popped := hinv.disj c hcq
  have hqnd : (c :: rest).Nodup := hq ▸ hinv.qnd
  have hcrest : c ∉ rest := (List.nodup_cons.1 hqnd).1
  have hrestnd : rest.Nodup := (List.nodup_cons.1 hqnd).2
  have hrestq : ∀ x ∈ rest, x ∈ s.queue := fun x hx => by
    rw [hq]; exact List.mem_cons_of_mem _ hx
  have hcnc : ¬ Relation.TransGen (edgeRel d) c c :=
    fun h => (hinv.untouched c h).1 hcq
  have hpnd' : (s.popped ++ [c]).Nodup := by
    refine hinv.pnd.append (List.nodup_singleton c) ?_
    intro x hx hxc
    rw [List.mem_singleton] at hxc
    exact hcP (hxc ▸ hx)
  cases hd : d.dir c.1 c.2 with
  | none =>
    refine ⟨{ s with queue := rest, popped := s.popped ++ [c] }, ?_, ?_, rfl⟩
    · unfold kstep
      rw [hd]
    · constructor
      · exact hrestnd
      · exact hpnd'
      · intro x hx
        rw [List.mem_append, List.mem_singleton]
        rintro (hxp | rfl)
        · exact hinv.disj x (hrestq x hx) hxp
        · exact hcrest hx
      · exact fun x hx => hinv.qmem x (hrestq x hx)
      · intro x hx
        rw [List.mem_append, List.mem_singleton] at hx
        rcases hx with hx | rfl
        · exact hinv.pmem x hx
        · exact hcb
      · intro x hx1 hx2
        have := hinv.ideg x hx1 hx2
        simp only at this ⊢
        rw [this]
        unfold poppedCount
        rw [filter_not_mem_append (not_preds_of_none hd x)]
      · intro x hx p hp
        rw [List.mem_append, List.mem_singleton]
        simp only at hx
        rcases hx with hx | hx
        · exact Or.inl (hinv.preds_done x (Or.inl (hrestq x hx)) p hp)
        · rw [List.mem_append, List.mem_singleton] at hx
          rcases hx with hx | rfl
          · exact Or.inl (hinv.preds_done x (Or.inr hx) p hp)
          · exact Or.inl (hinv.preds_done x (Or.inl hcq) p hp)
      · intro x hx1 hx2 hall hxp
        simp only at hall hxp ⊢
        rw [List.mem_append, List.mem_singleton] at hxp
        push_neg at hxp
        have hall' : ∀ p ∈ predsList d x, p ∈ s.popped := by
          intro p hp
          have := hall p hp
          rw [List.mem_append, List.mem_singleton] at this
          rcases this with h | rfl
          · exact h
          · exact absurd hp (not_preds_of_none hd x)
        have := hinv.ready x hx1 hx2 hall' hxp.1
        rw [hq] at this
        rcases List.mem_cons.1 this with rfl | h
        · exact absurd rfl hxp.2
        · exact h
      · rw [← hinv.mass]
        apply Finset.sum_congr rfl
        intro x hx
        simp only
        by_cases hxc : x = c
        · subst hxc
          rw [if_neg, if_neg]
          · rintro ⟨h1, -⟩
            exact hcP h1
          · rintro ⟨-, h2⟩
            exact h2 hd
        · have hiff : (x ∈ s.popped ++ [c]) ↔ x ∈ s.popped := by
            rw [List.mem_append, List.mem_singleton]
            exact ⟨fun h => h.resolve_right hxc, Or.inl⟩
          by_cases hxp : x ∈ s.popped ∧ d.dir x.1 x.2 ≠ none
          · rw [if_pos ⟨hiff.2 hxp.1, hxp.2⟩, if_pos hxp]
          · rw [if_neg (fun hcon => hxp ⟨hiff.1 hcon.1, hcon.2⟩), if_neg hxp]
      · intro x hx
        have hold := hinv.untouched x hx
        have hxc : x ≠ c := fun he => hcnc (he ▸ hx)
        constructor
        · intro hmem
          exact hold.1 (hrestq x hmem)
        · intro hmem
          rw [List.mem_append, List.mem_singleton] at hmem
          rcases hmem with h | h
          · exact hold.2 h
          · exact hxc h
  | some k =>
    have hcint : interior d.h d.w (c.1, c.2) :=
      hdi c.1 hcb.1 c.2 hcb.2 (by rw [hd]; exact fun h => Option.noConfusion h)
    have ht : tgt d c k = some (nbr c k) := tgt_interior hcint k
    have htb : (nbr c k).1 < d.h ∧ (nbr c k).2 < d.w := nbr_mem hcint k
    have htc : nbr c k ≠ c := nbr_ne hcint k
    have hedge : edgeRel d c (nbr c k) :=
      ⟨hcb.1, hcb.2, k, hd, ht⟩
    have hcpt : c ∈ predsList d (nbr c k) := preds_of_edge hcint hedge
    have htP : nbr c k ∉ s.popped := by
      intro h
      exact hcP (hinv.preds_done (nbr c k) (Or.inr h) c hcpt)
    have htQ : nbr c k ∉ s.queue := by
      intro h
      exact hcP (hinv.preds_done (nbr c k) (Or.inl h) c hcpt)
    have hidegt : s.indeg (nbr c k).1 (nbr c k).2 =
        (poppedCount d s.popped (nbr c k) : ℤ) := hinv.ideg _ htb.1 htb.2
    have hcount : poppedCount d (s.popped ++ [c]) (nbr c k) + 1 =
        poppedCount d s.popped (nbr c k) :=
      filter_not_mem_append_count (predsList_nodup d _) hcpt hcP
    have hother : ∀ x : ℕ × ℕ, x ≠ nbr c k →
        poppedCount d (s.popped ++ [c]) x = poppedCount d s.popped x := by
      intro x hx
      unfold poppedCount
      rw [filter_not_mem_append]
      intro hcx
      exact hx (preds_unique hcpt hcx).symm
    have hcond : (s.indeg (nbr c k).1 (nbr c k).2 - 1 = 0) ↔
        (∀ p ∈ predsList d (nbr c k), p ∈ s.popped ++ [c]) := by
      rw [hidegt, ← hcount, ← poppedCount_zero_iff]
      push_cast
      omega
    refine ⟨{ indeg := upd2 s.indeg (nbr c k) (s.indeg (nbr c k).1 (nbr c k).2 - 1)
              acc := upd2 s.acc (nbr c k)
                (s.acc (nbr c k).1 (nbr c k).2 + s.acc c.1 c.2)
              queue := if s.indeg (nbr c k).1 (nbr c k).2 - 1 = 0
                then rest ++ [nbr c k] else rest
              popped := s.popped ++ [c] }, ?_, ?_, rfl⟩
    · unfold kstep
      rw [hd]
      simp only
      rw [ht]
    · have hqmem' : ∀ x, (x ∈ (if s.indeg (nbr c k).1 (nbr c k).2 - 1 = 0
          then rest ++ [nbr c k] else rest)) →
          x ∈ rest ∨ (x = nbr c k ∧ s.indeg (nbr c k).1 (nbr c k).2 - 1 = 0) := by
        intro x hx
        split_ifs at hx with hif
        · rw [List.mem_append, List.mem_singleton] at hx
          rcases hx with hx | rfl
          · exact Or.inl hx
          · exact Or.inr ⟨rfl, hif⟩
        · exact Or.inl hx
      constructor
      · split_ifs with hif
        · refine hrestnd.append (List.nodup_singleton _) ?_
          intro x hx hxt
          rw [List.mem_singleton] at hxt
          exact htQ (hxt ▸ hrestq x hx)
        · exact hrestnd
      · exact hpnd'
      · intro x hx
        rcases hqmem' x hx with hxr | ⟨rfl, -⟩
        · rw [List.mem_append, List.mem_singleton]
          rintro (hxp | hxc)
          · exact hinv.disj x (hrestq x hxr) hxp
          · exact hcrest (hxc ▸ hxr)
        · rw [List.mem_append, List.mem_singleton]
          rintro (hxp | hxc)
          · exact htP hxp
          · exact htc hxc
      · intro x hx
        rcases hqmem' x hx with hxr | ⟨rfl, -⟩
        · exact hinv.qmem x (hrestq x hxr)
        · exact htb
      · intro x hx
        rw [List.mem_append, List.mem_singleton] at hx
        rcases hx with hx | rfl
        · exact hinv.pmem x hx
        · exact hcb
      · intro x hx1 hx2
        dsimp only
        by_cases hxt : x = nbr c k
        · subst hxt
          rw [upd2_self, hidegt, ← hcount]
          push_cast
          omega
        · rw [upd2_ne _ _ _ hxt, hinv.ideg x hx1 hx2, hother x hxt]
      · intro x hx p hp
        simp only at hx
        rw [List.mem_append, List.mem_singleton]
        rcases hx with hx | hx
        · rcases hqmem' x hx with hxr | ⟨rfl, hif⟩
          · exact Or.inl (hinv.preds_done x (Or.inl (hrestq x hxr)) p hp)
          · have := (hcond.1 hif) p hp
            rw [List.mem_append, List.mem_singleton] at this
            exact this
        · rw [List.mem_append, List.mem_singleton] at hx
          rcases hx with hx | rfl
          · exact Or.inl (hinv.preds_done x (Or.inr hx) p hp)
          · exact Or.inl (hinv.preds_done x (Or.inl hcq) p hp)
      · intro x hx1 hx2 hall hxp
        simp only at hall hxp ⊢
        rw [List.mem_append, List.mem_singleton] at hxp
        push_neg at hxp
        by_cases hcx : c ∈ predsList d x
        · have hxt : nbr c k = x := preds_unique hcpt hcx
          subst hxt
          rw [if_pos (hcond.2 hall)]
          rw [List.mem_append, List.mem_singleton]
          exact Or.inr rfl
        · have hall' : ∀ p ∈ predsList d x, p ∈ s.popped := by
            intro p hp
            have := hall p hp
            rw [List.mem_append, List.mem_singleton] at this
            rcases this with h | rfl
            · exact h
            · exact absurd hp hcx
          have := hinv.ready x hx1 hx2 hall' hxp.1
          rw [hq] at this
          rcases List.mem_cons.1 this with rfl | h
          · exact absurd rfl hxp.2
          · split_ifs
            · rw [List.mem_append]; exact Or.inl h
            · exact h
      · have hcmem : c ∈ cellsFS d.h d.w := mem_cellsFS.2 hcb
        have htmem : nbr c k ∈ cellsFS d.h d.w := mem_cellsFS.2 htb
        have htmem' : nbr c k ∈ (cellsFS d.h d.w).erase c :=
          Finset.mem_erase.2 ⟨htc, htmem⟩
        rw [← hinv.mass]
        rw [← Finset.sum_erase_add _ _ hcmem, ← Finset.sum_erase_add _ _ hcmem,
            ← Finset.sum_erase_add _ _ htmem', ← Finset.sum_erase_add _ _ htmem']
        have hrest_eq : ∀ x ∈ (((cellsFS d.h d.w).erase c).erase (nbr c k)),
            (if x ∈ s.popped ++ [c] ∧ d.dir x.1 x.2 ≠ none then 0
              else upd2 s.acc (nbr c k)
                (s.acc (nbr c k).1 (nbr c k).2 + s.acc c.1 c.2) x.1 x.2) =
            (if x ∈ s.popped ∧ d.dir x.1 x.2 ≠ none then 0 else s.acc x.1 x.2) := by
          intro x hx
          have hx1 : x ≠ nbr c k := (Finset.mem_erase.1 hx).1
          have hx2 : x ≠ c := (Finset.mem_erase.1 (Finset.mem_erase.1 hx).2).1
          rw [upd2_ne _ _ _ hx1]
          have : (x ∈ s.popped ++ [c]) ↔ x ∈ s.popped := by
            rw [List.mem_append, List.mem_singleton]
            exact ⟨fun h => h.resolve_right hx2, Or.inl⟩
          by_cases hxp : x ∈ s.popped ∧ d.dir x.1 x.2 ≠ none
          · rw [if_pos hxp, if_pos ⟨this.2 hxp.1, hxp.2⟩]
          · rw [if_neg hxp, if_neg]
            intro hcon
            exact hxp ⟨this.1 hcon.1, hcon.2⟩
        rw [Finset.sum_congr rfl hrest_eq]
        have hWt : (if nbr c k ∈ s.popped ++ [c] ∧ d.dir (nbr c k).1 (nbr c k).2 ≠ none
            then 0 else upd2 s.acc (nbr c k)
              (s.acc (nbr c k).1 (nbr c k).2 + s.acc c.1 c.2) (nbr c k).1 (nbr c k).2) =
            s.acc (nbr c k).1 (nbr c k).2 + s.acc c.1 c.2 := by
          rw [if_neg, upd2_self]
          rintro ⟨h1, -⟩
          rw [List.mem_append, List.mem_singleton] at h1
          rcases h1 with h1 | h1
          · exact htP h1
          · exact htc h1
        have hWt' : (if nbr c k ∈ s.popped ∧ d.dir (nbr c k).1 (nbr c k).2 ≠ none
            then 0 else s.acc (nbr c k).1 (nbr c k).2) =
            s.acc (nbr c k).1 (nbr c k).2 := by
          rw [if_neg]
          rintro ⟨h1, -⟩
          exact htP h1
        have hWc : (if c ∈ s.popped ++ [c] ∧ d.dir c.1 c.2 ≠ none
            then 0 else upd2 s.acc (nbr c k)
              (s.acc (nbr c k).1 (nbr c k).2 + s.acc c.1 c.2) c.1 c.2) = 0 := by
          rw [if_pos]
          refine ⟨by rw [List.mem_append, List.mem_singleton]; exact Or.inr rfl, ?_⟩
          rw [hd]
          exact fun h => Option.noConfusion h
        have hWc' : (if c ∈ s.popped ∧ d.dir c.1 c.2 ≠ none
            then 0 else s.acc c.1 c.2) = s.acc c.1 c.2 := by
          rw [if_neg]
          rintro ⟨h1, -⟩
          exact hcP h1
        rw [hWt, hWt', hWc, hWc']
        ring
      · intro x hx
        have hold := hinv.untouched x hx
        have hxc : x ≠ c := fun he => hcnc (he ▸ hx)
        constructor
        · intro hmem
          rcases hqmem' x hmem with h | ⟨rfl, hif⟩
          · exact hold.1 (hrestq x h)
          · obtain ⟨p, hpe, hpc⟩ := cycle_pred hx
            have hpint : interior d.h d.w (p.1, p.2) := by
              refine hdi p.1 hpe.1 p.2 hpe.2.1 ?_
              obtain ⟨k', hk', -⟩ := hpe.2.2
              rw [hk']
              exact fun h => Option.noConfusion h
            have hpmem : p ∈ predsList d (nbr c k) := preds_of_edge hpint hpe
            have := hcond.1 hif p hpmem
            rw [List.mem_append, List.mem_singleton] at this
            rcases this with h | h
            · exact (hinv.untouched p hpc).2 h
            · exact hcnc (h ▸ hpc)
        · intro hmem
          rw [List.mem_append, List.mem_singleton] at hmem
          rcases hmem with h | h
          · exact hold.2 h
          · exact hxc h

/-- The invariant holds at the initial state. -/
lemma init_inv {d : DirGrid} (hdi : dirsInterior d) : Inv d (initState d) := by
  have hq : (initState d).queue =
      (cellsRM d.h d.w).filter fun c => decide (indeg0 d c.1 c.2 = 0) := rfl
  have hqm : ∀ c, c ∈ (initState d).queue ↔
      (c.1 < d.h ∧ c.2 < d.w) ∧ indeg0 d c.1 c.2 = 0 := by
    intro c
    rw [hq, List.mem_filter, mem_cellsRM]
    simp
  have hpreds_nil : ∀ c : ℕ × ℕ, indeg0 d c.1 c.2 = 0 → predsList d c = [] := by
    intro c h
    unfold indeg0 at h
    exact List.eq_nil_of_length_eq_zero (by exact_mod_cast h)
  constructor
  · exact (cellsRM_nodup d.h d.w).filter _
  · exact List.nodup_nil
  · exact fun c _ h => (List.not_mem_nil c) h
  · exact fun c hc => ((hqm c).1 hc).1
  · exact fun c hc => absurd hc (List.not_mem_nil c)
  · intro c h1 h2
    have hfil : poppedCount d (initState d).popped c = (predsList d c).length := by
      unfold poppedCount
      congr 1
      apply List.filter_eq_self.2
      intro p hp
      simp [initState]
    show indeg0 d c.1 c.2 = (poppedCount d (initState d).popped c : ℤ)
    rw [hfil]
    rfl
  · intro c hc p hp
    rcases hc with hc | hc
    · rw [hpreds_nil c ((hqm c).1 hc).2] at hp
      cases hp
    · exact absurd hc (List.not_mem_nil c)
  · intro c h1 h2 hall hnp
    rw [hqm c]
    refine ⟨⟨h1, h2⟩, ?_⟩
    unfold indeg0
    norm_cast
    rw [List.length_eq_zero]
    by_contra hne
    obtain ⟨p, hp⟩ := List.exists_mem_of_ne_nil _ hne
    exact absurd (hall p hp) (List.not_mem_nil p)
  · have : ∀ x ∈ cellsFS d.h d.w,
        (if x ∈ (initState d).popped ∧ d.dir x.1 x.2 ≠ none then 0
          else (initState d).acc x.1 x.2) = (1 : ℚ) := by
      intro x hx
      rw [if_neg]
      · rfl
      · rintro ⟨h1, -⟩
        exact (List.not_mem_nil x) h1
    rw [Finset.sum_congr rfl this, Finset.sum_const, cellsFS_card]
    simp
  · intro c hc
    refine ⟨?_, fun h => (List.not_mem_nil c) h⟩
    intro hcq
    obtain ⟨p, hpe, hpc⟩ := cycle_pred hc
    have hpint : interior d.h d.w (p.1, p.2) := by
      refine hdi p.1 hpe.1 p.2 hpe.2.1 ?_
      obtain ⟨k', hk', -⟩ := hpe.2.2
      rw [hk']
      exact fun h => Option.noConfusion h
    have hpmem : p ∈ predsList d c := preds_of_edge hpint hpe
    rw [hpreds_nil c ((hqm c).1 hcq).2] at hpmem
    cases hpmem

/-- With fuel `h * w` minus the pops already made, the loop always drains its
queue without raising (no acyclicity needed). -/
lemma krun_completes {d : DirGrid} (hdi : dirsInterior d) :
    ∀ (f : ℕ) (s : KState), Inv d s → s.popped.length + f = d.h * d.w →
    ∃ s', krun d f s = some s' ∧ Inv d s' ∧ s'.queue = [] := by
  intro f
  induction f with
  | zero =>
    intro s hinv hlen
    have hsub : s.popped.toFinset ⊆ cellsFS d.h d.w := by
      intro x hx
      rw [List.mem_toFinset] at hx
      exact mem_cellsFS.2 (hinv.pmem x hx)
    have hcard : (cellsFS d.h d.w).card ≤ s.popped.toFinset.card := by
      rw [List.toFinset_card_of_nodup hinv.pnd, cellsFS_card]
      omega
    have heq : s.popped.toFinset = cellsFS d.h d.w :=
      Finset.eq_of_subset_of_card_le hsub hcard ▸ rfl
    cases hqe : s.queue with
    | nil => exact ⟨s, by rw [krun, if_pos hqe], hinv, hqe⟩
    | cons c rest =>
      have hc : c ∈ s.queue := by rw [hqe]; exact List.mem_cons_self ..
      have hb := hinv.qmem c hc
      have : c ∈ s.popped := by
        rw [← List.mem_toFinset, heq]
        exact mem_cellsFS.2 hb
      exact absurd this (hinv.disj c hc)
  | succ f ih =>
    intro s hinv hlen
    cases hqe : s.queue with
    | nil =>
      refine ⟨s, ?_, hinv, hqe⟩
      show krun d (f + 1) s = some s
      rw [krun, hqe]
    | cons c rest =>
      obtain ⟨s', hks, hinv', hpop⟩ := kstep_inv hdi hqe hinv
      have hlen' : s'.popped.length + f = d.h * d.w := by
        rw [hpop, List.length_append, List.length_singleton]
        omega
      obtain ⟨s'', h1, h2, h3⟩ := ih s' hinv' hlen'
      refine ⟨s'', ?_, h2, h3⟩
      show krun d (f + 1) s = some s''
      rw [krun, hqe]
      simp only
      rw [hks]
      exact h1

/-- When the queue has drained and the raster is acyclic, every in-bounds
cell has been processed. -/
lemma popped_complete {d : DirGrid} (_hdi : dirsInterior d) (hacyc : Acyclic d)
    {s : KState} (hinv : Inv d s) (hq : s.queue = []) :
    ∀ x : ℕ × ℕ, x.1 < d.h → x.2 < d.w → x ∈ s.popped := by
  by_contra hcon
  push_neg at hcon
  obtain ⟨x₀, hx1, hx2, hxp⟩ := hcon
  have hstep : ∀ x, x ∈ (cellsFS d.h d.w).filter (fun x => x ∉ s.popped) →
      ∃ p, p ∈ (cellsFS d.h d.w).filter (fun x => x ∉ s.popped) ∧ edgeRel d p x := by
    intro x hxB
    obtain ⟨hxc, hxp'⟩ := Finset.mem_filter.1 hxB
    obtain ⟨hxb1, hxb2⟩ := mem_cellsFS.1 hxc
    have hnr : ¬ ∀ p ∈ predsList d x, p ∈ s.popped := by
      intro hall
      have := hinv.ready x hxb1 hxb2 hall hxp'
      rw [hq] at this
      cases this
    push_neg at hnr
    obtain ⟨p, hp, hpP⟩ := hnr
    have hpe := edge_of_preds hp
    exact ⟨p, Finset.mem_filter.2 ⟨mem_cellsFS.2 ⟨hpe.1, hpe.2.1⟩, hpP⟩, hpe⟩
  choose g hg1 hg2 using hstep
  have hx₀B : x₀ ∈ (cellsFS d.h d.w).filter (fun x => x ∉ s.popped) :=
    Finset.mem_filter.2 ⟨mem_cellsFS.2 ⟨hx1, hx2⟩, hxp⟩
  let F : {x // x ∈ (cellsFS d.h d.w).filter (fun x => x ∉ s.popped)} →
      {x // x ∈ (cellsFS d.h d.w).filter (fun x => x ∉ s.popped)} :=
    fun y => ⟨g y.val y.property, hg1 y.val y.property⟩
  have hFedge : ∀ y, edgeRel d (F y).val y.val := fun y => hg2 y.val y.property
  let u : ℕ → {x // x ∈ (cellsFS d.h d.w).filter (fun x => x ∉ s.popped)} :=
    fun n => F^[n] ⟨x₀, hx₀B⟩
  have hchain : ∀ a b : ℕ, a < b →
      Relation.TransGen (edgeRel d) (u b).val (u a).val := by
    intro a b
    induction b with
    | zero => omega
    | succ b ihb =>
      intro hab
      have hstep' : edgeRel d (u (b + 1)).val (u b).val := by
        have : u (b + 1) = F (u b) := Function.iterate_succ_apply' F b _
        rw [this]
        exact hFedge (u b)
      rcases Nat.lt_or_ge a b with h | h
      · exact Relation.TransGen.head hstep' (ihb h)
      · have : a = b := by omega
        subst this
        exact Relation.TransGen.single hstep'
  obtain ⟨m, n, hmn, hum⟩ := Finite.exists_ne_map_eq_of_infinite u
  rcases Nat.lt_or_ge m n with h | h
  · exact hacyc (u n).val (hum ▸ hchain m n h)
  · have h' : n < m := by omega
    exact hacyc (u m).val (hum ▸ hchain n m h')

/-- Run of the loop from the initial state: it always completes for rasters
whose defined directions sit at interior cells. -/
lemma flow_complete {d : DirGrid} (hdi : dirsInterior d) :
    ∃ s', krun d (d.h * d.w) (initState d) = some s' ∧ Inv d s' ∧
      s'.queue = [] := by
  apply krun_completes hdi (d.h * d.w) (initState d) (init_inv hdi)
  show (List.length [] + d.h * d.w) = d.h * d.w
  simp

/-- Conservation at a fully drained, fully processed final state. -/
lemma mass_final {d : DirGrid} {s' : KState} (hinv : Inv d s')
    (hfull : ∀ x : ℕ × ℕ, x.1 < d.h → x.2 < d.w → x ∈ s'.popped) :
    terminalAccSum d s'.acc = ((d.h * d.w : ℕ) : ℚ) := by
  rw [← hinv.mass]
  unfold terminalAccSum
  rw [Finset.sum_filter]
  apply Finset.sum_congr rfl
  intro x hx
  obtain ⟨hx1, hx2⟩ := mem_cellsFS.1 hx
  have hxp := hfull x hx1 hx2
  by_cases hdx : d.dir x.1 x.2 = none
  · rw [if_pos hdx, if_neg]
    rintro ⟨-, h2⟩
    exact h2 hdx
  · rw [if_neg hdx, if_pos ⟨hxp, hdx⟩]

/-- A strictly decreasing rank function certifies acyclicity. -/
lemma acyclic_of_rank (d : DirGrid) (rank : ℕ × ℕ → ℕ)
    (hr : ∀ a b, edgeRel d a b → rank b < rank a) : Acyclic d := by
  intro c hc
  have hmono : ∀ a b, Relation.TransGen (edgeRel d) a b → rank b < rank a := by
    intro a b h
    induction h with
    | single h => exact hr _ _ h
    | tail hab hbc ih => exact lt_trans (hr _ _ hbc) ih
  exact absurd (hmono c c hc) (lt_irrefl _)

lemma edge_bounds {d : DirGrid} {a b : ℕ × ℕ} (h : edgeRel d a b) :
    a.1 < d.h ∧ a.2 < d.w ∧ b.1 < d.h ∧ b.2 < d.w := by
  obtain ⟨h1, h2, k, hk, ht⟩ := h
  have hm := tgt_mem ht
  exact ⟨h1, h2, hm.1, hm.2⟩

/-- The raster `d8_flow_direction` produces assigns directions at interior
cells only. -/
lemma d8_dirsInterior (g : ElevGrid) : dirsInterior (d8Grid g) := by
  intro i hi j hj hne
  by_contra hint
  apply hne
  show d8dir g i j = none
  unfold d8dir
  exact if_neg hint

lemma d8_edge_drop (g : ElevGrid) {a b : ℕ × ℕ}
    (h : edgeRel (d8Grid g) a b) :
    ∃ za zb, g.z a.1 a.2 = some za ∧ g.z b.1 b.2 = some zb ∧ zb < za := by
  obtain ⟨h1, h2, k, hk, ht⟩ := h
  have hint : interior g.h g.w (a.1, a.2) := d8dir_interior hk
  have ht' : tgt (d8Grid g) a k = some (nbr a k) := tgt_interior hint k
  rw [ht'] at ht
  cases ht
  exact d8dir_drop hk

/-- The flow graph of a D8 raster has no cycle: elevation strictly drops
along every edge. -/
lemma d8_acyclic (g : ElevGrid) : Acyclic (d8Grid g) := by
  intro c hc
  have hmono : ∀ a b, Relation.TransGen (edgeRel (d8Grid g)) a b →
      ∃ za zb, g.z a.1 a.2 = some za ∧ g.z b.1 b.2 = some zb ∧ zb < za := by
    intro a b h
    induction h with
    | single h => exact d8_edge_drop g h
    | tail hab hbc ih =>
      obtain ⟨za, zb, h1, h2, h3⟩ := ih
      obtain ⟨zb', zc, h4, h5, h6⟩ := d8_edge_drop g hbc
      rw [h2] at h4
      cases h4
      exact ⟨za, zc, h1, h5, by linarith⟩
  obtain ⟨za, zb, h1, h2, h3⟩ := hmono c c hc
  rw [h1] at h2
  cases h2
  exact absurd h3 (lt_irrefl _)

/-! ## Claims about the accumulation traversal -/

/-- C1 amended.  For every acyclic direction raster whose defined directions
sit at interior cells (as every `d8_flow_direction` output does),
`flow_accumulation_cells` completes and the accumulation summed over the
terminal cells (undefined direction) equals the number of cells — each cell
contributes exactly its own initial 1. -/
theorem C1_conservation (d : DirGrid) (hdi : dirsInterior d)
    (hacyc : Acyclic d) :
    ∃ a, flow_accumulation_cells d = some a ∧
      terminalAccSum d a = ((d.h * d.w : ℕ) : ℚ) := by
  obtain ⟨s', hk, hinv, hq⟩ := flow_complete hdi
  refine ⟨s'.acc, ?_, ?_⟩
  · unfold flow_accumulation_cells
    rw [hk]
    rfl
  · exact mass_final hinv (popped_complete hdi hacyc hinv hq)

/-- C1 witness: the D8 raster of the synthetic DEM `G6` satisfies both
hypotheses and conserves its 9 cells. -/
theorem C1_witness :
    dirsInterior (d8Grid G6) ∧
    ∃ a, flow_accumulation_cells (d8Grid G6) = some a ∧
      terminalAccSum (d8Grid G6) a = (((d8Grid G6).h * (d8Grid G6).w : ℕ) : ℚ) :=
  ⟨d8_dirsInterior G6, C1_conservation (d8Grid G6) (d8_dirsInterior G6) (d8_acyclic G6)⟩

/-- C1 counterexample.  `GC1` is acyclic, yet the sum of the final
accumulation over its terminal cells is 18 while it has 20 cells: its border
cell `(0,1)` carries a defined direction whose edge is followed by the
traversal but never counted in any in-degree, so its target is popped too
early and mass strands on a non-terminal cell.  Conservation fails for an
acyclic flow-direction grid. -/
theorem C1_counterexample :
    Acyclic GC1 ∧
    (flow_accumulation_cells GC1).map (fun a => terminalAccSum GC1 a) = some 18 ∧
    GC1.h * GC1.w = 20 ∧ ¬ (18 : ℚ) = 20 := by
  refine ⟨?_, by decide!, by decide!, by decide!⟩
  apply acyclic_of_rank GC1 rankGC1
  intro a b h
  have hb := edge_bounds h
  revert h
  exact (by decide :
    ∀ a1, a1 < 5 → ∀ a2, a2 < 4 → ∀ b1, b1 < 5 → ∀ b2, b2 < 4 →
      edgeRel GC1 (a1, a2) (b1, b2) → rankGC1 (b1, b2) < rankGC1 (a1, a2))
    a.1 hb.1 a.2 hb.2.1 b.1 hb.2.2.1 b.2 hb.2.2.2

/-- C4.  For every elevation raster: elevation strictly drops along every
flow edge of the D8 raster, hence no flow path revisits a cell, and the
Kahn-style traversal of `flow_accumulation_cells` completes, processes every
cell exactly once (the processed list has no duplicate and holds exactly the
in-bounds cells) and drains every in-degree to zero. -/
theorem C4_forest_and_drain (g : ElevGrid) :
    (∀ a b, edgeRel (d8Grid g) a b →
      ∃ za zb, g.z a.1 a.2 = some za ∧ g.z b.1 b.2 = some zb ∧ zb < za) ∧
    Acyclic (d8Grid g) ∧
    ∃ s', krun (d8Grid g) (g.h * g.w) (initState (d8Grid g)) = some s' ∧
      flow_accumulation_cells (d8Grid g) = some s'.acc ∧
      s'.queue = [] ∧ s'.popped.Nodup ∧
      (∀ c : ℕ × ℕ, (c.1 < g.h ∧ c.2 < g.w) ↔ c ∈ s'.popped) ∧
      (∀ c : ℕ × ℕ, c.1 < g.h → c.2 < g.w → s'.indeg c.1 c.2 = 0) := by
  refine ⟨fun a b h => d8_edge_drop g h, d8_acyclic g, ?_⟩
  obtain ⟨s', hk, hinv, hq⟩ := flow_complete (d8_dirsInterior g)
  have hfull := popped_complete (d8_dirsInterior g) (d8_acyclic g) hinv hq
  refine ⟨s', hk, ?_, hq, hinv.pnd, ?_, ?_⟩
  · unfold flow_accumulation_cells
    rw [hk]
    rfl
  · intro c
    exact ⟨fun hb => hfull c hb.1 hb.2, fun hp => hinv.pmem c hp⟩
  · intro c h1 h2
    rw [hinv.ideg c h1 h2]
    norm_cast
    rw [poppedCount_zero_iff]
    intro p hp
    obtain ⟨⟨hp1, hp2, hp3, hp4⟩, -⟩ := mem_predsList.1 hp
    exact hfull p (by omega) (by omega)

/-- C3 amended.  On a raster with a cycle (defined directions at interior
cells), `flow_accumulation_cells` still terminates and returns normally — no
error of any kind is reported — but the cycle is silently ignored: a cell on
a cycle is never enqueued or processed and its in-degree never drains to
zero. -/
theorem C3_cycle_silently_ignored (d : DirGrid) (hdi : dirsInterior d)
    (c : ℕ × ℕ) (hcyc : Relation.TransGen (edgeRel d) c c) :
    ∃ s', krun d (d.h * d.w) (initState d) = some s' ∧
      flow_accumulation_cells d = some s'.acc ∧ s'.queue = [] ∧
      c ∉ s'.popped ∧ 1 ≤ s'.indeg c.1 c.2 := by
  obtain ⟨s', hk, hinv, hq⟩ := flow_complete hdi
  refine ⟨s', hk, ?_, hq, (hinv.untouched c hcyc).2, ?_⟩
  · unfold flow_accumulation_cells
    rw [hk]
    rfl
  · obtain ⟨p, hpe, hpc⟩ := cycle_pred hcyc
    have hcb := edge_bounds hpe
    have hpint : interior d.h d.w (p.1, p.2) := by
      refine hdi p.1 hpe.1 p.2 hpe.2.1 ?_
      obtain ⟨k', hk', -⟩ := hpe.2.2
      rw [hk']
      exact fun h => Option.noConfusion h
    have hpmem : p ∈ predsList d c := preds_of_edge hpint hpe
    have hpP : p ∉ s'.popped := (hinv.untouched p hpc).2
    rw [hinv.ideg c hcb.2.2.1 hcb.2.2.2]
    have hne : poppedCount d s'.popped c ≠ 0 := fun h0 =>
      hpP ((poppedCount_zero_iff.1 h0) p hpmem)
    omega

/-- C3 witness: the two-cell mutual pointer `GC3` drains its queue, returns
a normal result, and leaves the cycle cell `(1,1)` unprocessed with
in-degree 1. -/
theorem C3_witness :
    ∃ s', krun GC3 (GC3.h * GC3.w) (initState GC3) = some s' ∧
      flow_accumulation_cells GC3 = some s'.acc ∧ s'.queue = [] ∧
      (1, 1) ∉ s'.popped ∧ 1 ≤ s'.indeg 1 1 :=
  C3_cycle_silently_ignored GC3 (by decide) (1, 1)
    (Relation.TransGen.head
      (show edgeRel GC3 (1, 1) (1, 2) from ⟨by decide, by decide, 4, by decide, by decide⟩)
      (Relation.TransGen.single
        (show edgeRel GC3 (1, 2) (1, 1) from ⟨by decide, by decide, 3, by decide, by decide⟩)))

/-- C3 counterexample.  The spec's artificial two-cell mutual pointer: the
flow-direction raster `GC3` has a genuine cycle through `(1,1)`, yet the
accumulation returns a perfectly normal result — the queue drains, no error
of any kind is raised, the cycle cells are simply never processed (their
in-degree stays 1, their accumulation stays 1). -/
theorem C3_counterexample :
    Relation.TransGen (edgeRel GC3) (1, 1) (1, 1) ∧
    (krun GC3 12 (initState GC3)).map
      (fun s => (s.queue.length, s.indeg 1 1, decide ((1, 1) ∈ s.popped))) =
      some (0, 1, false) ∧
    (flow_accumulation_cells GC3).map (fun a => a 1 1) = some 1 := by
  refine ⟨?_, by decide!, by decide!⟩
  exact Relation.TransGen.head
    (show edgeRel GC3 (1, 1) (1, 2) from ⟨by decide, by decide, 4, by decide, by decide⟩)
    (Relation.TransGen.single
      (show edgeRel GC3 (1, 2) (1, 1) from ⟨by decide, by decide, 3, by decide, by decide⟩))

end RusleLS
